import Mathlib

/-!
Shallow embedding of `src/main.py` of the job-radar repository, together with
theorems settling the frozen claims about its scoring and filtering pipeline.

Python strings are modelled as Lean `String`; Python `s.strip()` as
`pyStrip`, `s.lower()` as `pyLower`, and the substring test `needle in hay`
as an executable infix check on character lists (all structurally recursive,
so every concrete instance evaluates in the kernel).  Python integers are
`Int` (they are unbounded), and the float similarity returned by the external
`rapidfuzz.fuzz.partial_ratio` library is abstracted as a parameter
`pr : String → String → ℚ` (the claims quantify over all inputs, so no
property of the concrete similarity algorithm is assumed).
-/

namespace JobRadar

/-- Prefix test on character lists (model of Python string prefix matching). -/
def isPrefixL : List Char → List Char → Bool
  | [], _ => true
  | _ :: _, [] => false
  | a :: as, b :: bs => a = b && isPrefixL as bs

/-- Contiguous-substring test on character lists: model of Python `n in h`. -/
def isInfixL (n : List Char) : List Char → Bool
  | [] => isPrefixL n []
  | c :: t => isPrefixL n (c :: t) || isInfixL n t

/-- Python `needle in haystack` on strings. -/
def strIn (needle hay : String) : Bool :=
  isInfixL needle.data hay.data

/-- Python `s.lower()`: lowercase every character. -/
def pyLower (s : String) : String :=
  String.mk (s.data.map Char.toLower)

/-- Python `s.strip()`: drop leading and trailing whitespace. -/
def pyStrip (s : String) : String :=
  String.mk (((s.data.dropWhile Char.isWhitespace).reverse.dropWhile
    Char.isWhitespace).reverse)

/-- Model of `norm` (line 36): `(s or "").strip().lower()`. -/
def norm (s : String) : String :=
  pyLower (pyStrip s)

/-- Scanner for the non-greedy tag regex `<[^<]+?>` of `strip_html` (line 42):
given the characters after a `<` and the count of characters consumed so far,
returns the remainder after the closing `>` of the shortest match, or `none`
when no match starts at this `<`. -/
def findGt (k : Nat) : List Char → Option (List Char)
  | [] => none
  | c :: rest =>
    if 1 ≤ k ∧ c = '>' then some rest
    else if c = '<' then none
    else findGt (k + 1) rest

theorem findGt_length : ∀ (l : List Char) (k r), findGt k l = some r → r.length < l.length := by
  intro l
  induction l with
  | nil => intro k r h; simp [findGt] at h
  | cons c rest ih =>
    intro k r h
    simp only [findGt] at h
    split at h
    · cases h
      simp
    · split at h
      · cases h
      · exact Nat.lt_succ_of_lt (ih (k + 1) r h)

/-- Replacement pass of `re.sub("<[^<]+?>", " ", s)` in `strip_html`: a match
starting at a `<` is replaced by a single space, scanning resumes after it.
The fuel argument keeps the recursion structural; each step strictly shortens
the list (`findGt_length`), so fuel equal to the list length, as supplied by
`stripTags`, never runs out. -/
def stripTagsFuel : Nat → List Char → List Char
  | 0, l => l
  | _ + 1, [] => []
  | fuel + 1, c :: rest =>
    if c = '<' then
      match findGt 0 rest with
      | some rem => ' ' :: stripTagsFuel fuel rem
      | none => c :: stripTagsFuel fuel rest
    else c :: stripTagsFuel fuel rest

/-- The tag-removal substitution on character lists. -/
def stripTagsAux (l : List Char) : List Char :=
  stripTagsFuel l.length l

/-- Whitespace-collapsing pass of `re.sub(r"\s+", " ", s)`: every maximal run
of whitespace becomes a single space.  The flag records whether the previous
character was whitespace. -/
def collapseWsAux : Bool → List Char → List Char
  | _, [] => []
  | prevWs, c :: rest =>
    if c.isWhitespace then
      if prevWs then collapseWsAux true rest
      else ' ' :: collapseWsAux true rest
    else c :: collapseWsAux false rest

/-- Model of `strip_html` (lines 40-43): drop `<...>` tag matches, collapse
whitespace, trim. -/
def strip_html (s : String) : String :=
  pyStrip (String.mk (collapseWsAux false (stripTagsAux s.data)))

/-- Word character in the sense of the regex class `\w`. -/
def isWordChar (c : Char) : Bool :=
  c.isAlphanum || c = '_'

/-- Replace every character that is neither a word character nor whitespace by
a space: model of `re.sub(r"[^\w\s]", " ", s)` (line 49). -/
def punctToSpace (l : List Char) : List Char :=
  l.map (fun c => if isWordChar c || c.isWhitespace then c else ' ')

/-- Replace the ampersand by the word "and": model of
`s.replace("&", " and ")` (line 48). -/
def ampToAnd : List Char → List Char
  | [] => []
  | c :: rest =>
    if c = '&' then ' ' :: 'a' :: 'n' :: 'd' :: ' ' :: ampToAnd rest
    else c :: ampToAnd rest

/-- The alternatives of the legal-suffix regex of line 50, in source order
(leftmost-first alternation as in Python `re`).  The alternatives containing
a literal dot can never match, since the preceding substitution of line 49
has already replaced every dot by a space; they are kept for faithfulness. -/
def suffixAlts : List (List Char) :=
  ["inc", "ltd", "llc", "plc", "gmbh", "ag", "sa", "s a", "s.a", "nv", "bv",
   "spa", "pte", "pte.", "co", "company", "corp", "corporation", "holdings",
   "holding"].map String.data

/-- Match a literal alternative at the head of the input, returning the
remainder on success. -/
def matchLit : List Char → List Char → Option (List Char)
  | [], rest => some rest
  | _ :: _, [] => none
  | a :: as, c :: rest => if c = a then matchLit as rest else none

/-- Word boundary after a match: end of input or a non-word character. -/
def boundaryAfter : List Char → Bool
  | [] => true
  | c :: _ => !isWordChar c

/-- Try the alternatives in order at the current position; an alternative
succeeds when its literal matches and a word boundary follows (every
alternative ends in a word character, so `\b` after the group demands a
non-word character or the end). -/
def tryAlts : List (List Char) → List Char → Option (List Char)
  | [], _ => none
  | a :: as, l =>
    match matchLit a l with
    | some rest => if boundaryAfter rest then some rest else tryAlts as l
    | none => tryAlts as l

theorem matchLit_length : ∀ (a l r : List Char), matchLit a l = some r → r.length ≤ l.length := by
  intro a
  induction a with
  | nil => intro l r h; cases h; exact Nat.le_refl _
  | cons x xs ih =>
    intro l r h
    cases l with
    | nil => cases h
    | cons c rest =>
      simp only [matchLit] at h
      split at h
      · exact Nat.le_succ_of_le (ih rest r h)
      · cases h

theorem tryAlts_suffix_length :
    ∀ (l r : List Char), tryAlts suffixAlts l = some r → r.length < l.length := by
  intro l r h
  have step : ∀ (alts : List (List Char)), (∀ a ∈ alts, a ≠ []) →
      tryAlts alts l = some r → r.length < l.length := by
    intro alts
    induction alts with
    | nil => intro _ h'; cases h'
    | cons a as ih =>
      intro hne h'
      simp only [tryAlts] at h'
      cases hm : matchLit a l with
      | some rest =>
        rw [hm] at h'
        dsimp only at h'
        by_cases hb : boundaryAfter rest = true
        · rw [if_pos hb] at h'
          cases h'
          cases a with
          | nil => exact absurd rfl (hne [] (List.mem_cons_self _ _))
          | cons x xs =>
            cases l with
            | nil => cases hm
            | cons c cl =>
              simp only [matchLit] at hm
              split at hm
              · exact Nat.lt_succ_of_le (matchLit_length xs cl r hm)
              · cases hm
        · rw [if_neg hb] at h'
          exact ih (fun b hb => hne b (List.mem_cons_of_mem _ hb)) h'
      | none =>
        rw [hm] at h'
        exact ih (fun b hb => hne b (List.mem_cons_of_mem _ hb)) h'
  refine step suffixAlts ?_ h
  decide

/-- Scanner of `re.sub(r"\b(inc|ltd|...)\b", " ", s)` (line 50): at every
position preceded by a word boundary, try the alternatives leftmost-first;
a match is replaced by a single space and scanning resumes after it (the
character before the resume point is the last character of the match, a word
character).  The fuel keeps the recursion structural; each step strictly
shortens the list (`tryAlts_suffix_length`), so fuel equal to the list
length, as supplied by `subSuffixes`, never runs out. -/
def subSuffixesFuel : Nat → Bool → List Char → List Char
  | 0, _, l => l
  | _ + 1, _, [] => []
  | fuel + 1, prevWord, c :: rest =>
    match tryAlts suffixAlts (c :: rest) with
    | some rem =>
      if prevWord then c :: subSuffixesFuel fuel (isWordChar c) rest
      else ' ' :: subSuffixesFuel fuel true rem
    | none => c :: subSuffixesFuel fuel (isWordChar c) rest

/-- The legal-suffix substitution on character lists. -/
def subSuffixes (l : List Char) : List Char :=
  subSuffixesFuel l.length false l

/-- Model of `normalize_company_name` (lines 46-52). -/
def normalize_company_name (s : String) : String :=
  let l := (pyLower s).data
  let l := ampToAnd l
  let l := punctToSpace l
  let l := subSuffixes l
  pyStrip (String.mk (collapseWsAux false l))

/-- A job posting in the common shape produced by every fetcher (spec §3).
Every field is a string; absent values are the empty string, matching the
`j.get(..., "") or ""` convention of the fetchers. -/
structure Posting where
  title : String
  company : String
  location : String
  apply_url : String
  description : String
  source : String
  date_posted : String
deriving DecidableEq, Repr

/-- The `company_universe` sub-dictionary of the configuration: the `enabled`
flag and the three bonus magnitudes (`int(cu.get("bonus_extra", 14))` etc.,
arbitrary integers). -/
structure CompanyUniverseCfg where
  enabled : Bool
  bonus_extra : Int
  bonus_global : Int
  bonus_brazil : Int
deriving DecidableEq, Repr

/-- The configuration keys the scoring and filtering pipeline reads, with the
types the code coerces them to (`cfg.get(k, []) or []` gives a list,
`int(cfg.get(...))` an integer, the policy flag a boolean). -/
structure Config where
  exclude_title_keywords : List String
  must_contain_any_of : List String
  target_title_keywords : List String
  brazil_location_keywords : List String
  remote_keywords : List String
  nice_keywords_desc : List String
  require_remote_outside_brazil : Bool
  company_universe : CompanyUniverseCfg
  min_score_to_send : Int
  max_items_per_day : Int
deriving DecidableEq, Repr

/-- Model of `dedupe` (lines 313-324), with the growing set of seen URLs made
an explicit accumulator (a list of strings with membership testing, extension
order irrelevant as only membership is consulted). -/
def dedupeAux (seenUrls : List String) : List Posting → List Posting
  | [] => []
  | it :: rest =>
    let url := pyStrip it.apply_url
    if url = "" then dedupeAux seenUrls rest
    else if url ∈ seenUrls then dedupeAux seenUrls rest
    else it :: dedupeAux (url :: seenUrls) rest

/-- Model of `dedupe` (lines 313-324). -/
def dedupe (items : List Posting) : List Posting :=
  dedupeAux [] items

/-- Model of `is_brazil_job` (lines 327-329). -/
def is_brazil_job (location : String) (cfg : Config) : Bool :=
  let loc := norm location
  cfg.brazil_location_keywords.any (fun k => strIn (norm k) loc)

/-- Model of `is_remote_job` (lines 332-342). -/
def is_remote_job (job : Posting) (cfg : Config) : Bool :=
  let src := pyLower job.source
  if src = "remotive" || src = "remoteok" || src = "weworkremotely" then true
  else
    let text := norm job.location ++ " " ++ norm job.title ++ " "
      ++ norm (strip_html job.description)
    cfg.remote_keywords.any (fun k => strIn (norm k) text)

/-- Model of `should_exclude_title` (lines 345-347). -/
def should_exclude_title (title : String) (cfg : Config) : Bool :=
  let t := norm title
  cfg.exclude_title_keywords.any (fun b => strIn (norm b) t)

/-- Model of `must_be_finance_domain` (lines 350-355). -/
def must_be_finance_domain (title : String) (cfg : Config) : Bool :=
  let t := norm title
  if strIn "cfo" t || strIn "chief financial officer" t then true
  else cfg.must_contain_any_of.any (fun k => strIn (norm k) t)

/-- The fuzzy-similarity maximum of `title_match_score` (lines 366-370):
`best = max(best, fuzz.partial_ratio(kk, t))` over the target keywords whose
normalization is nonempty, starting from 0.  The external similarity function
is the parameter `pr`. -/
def fuzzy_best (pr : String → String → ℚ) (t : String) (cfg : Config) : ℚ :=
  cfg.target_title_keywords.foldl
    (fun b k => if norm k = "" then b else max b (pr (norm k) t)) 0

/-- Model of `title_match_score` (lines 358-378): a verbatim substring match
of any (nonempty-normalized) target keyword returns 78 at once; otherwise the
fuzzy maximum is mapped through the 92/88/84 staircase. -/
def title_match_score (pr : String → String → ℚ) (title : String) (cfg : Config) : Int :=
  let t := norm title
  if cfg.target_title_keywords.any (fun k => norm k ≠ "" && strIn (norm k) t) then 78
  else
    let best := fuzzy_best pr t cfg
    if best ≥ 92 then 68
    else if best ≥ 88 then 58
    else if best ≥ 84 then 48
    else 0

/-- Model of `company_bonus` (lines 381-398); the three company sets are
finite sets of (already normalized) names, as built by
`load_company_universe`. -/
def company_bonus (company : String) (br : Bool)
    (global_set brazil_set extra_set : Finset String) (cfg : Config) : Int :=
  if !cfg.company_universe.enabled then 0
  else
    let c := normalize_company_name company
    (if c ∈ extra_set then cfg.company_universe.bonus_extra else 0)
    + (if c ∈ global_set then cfg.company_universe.bonus_global else 0)
    + (if br && c ∈ brazil_set then cfg.company_universe.bonus_brazil else 0)

/-- Model of `score_job` (lines 401-436). -/
def score_job (pr : String → String → ℚ) (job : Posting) (cfg : Config)
    (global_set brazil_set extra_set : Finset String) : Int :=
  let title := job.title
  let desc := strip_html job.description
  let loc := job.location
  let company := job.company
  if should_exclude_title title cfg then 0
  else if !must_be_finance_domain title cfg then 0
  else
    let br := is_brazil_job loc cfg
    let remote := is_remote_job job cfg
    if cfg.require_remote_outside_brazil && !br && !remote then 0
    else
      let score := title_match_score pr title cfg
      if score = 0 then 0
      else
        let d := norm desc
        let kw_bonus : Int :=
          cfg.nice_keywords_desc.foldl (fun b k => if strIn (norm k) d then b + 3 else b) 0
        let score := score + min kw_bonus 24
        let score := score + company_bonus company br global_set brazil_set extra_set cfg
        let score := score + (if br then 6 else 0)
        let score := score + (if remote then 6 else 0)
        max 0 (min score 100)

/-- A posting with its score attached, as written by `j["score"] = s`
(line 510). -/
structure ScoredPosting where
  job : Posting
  score : Int
deriving DecidableEq, Repr

/-- Model of `scored.sort(key=lambda x: x.get("score", 0), reverse=True)`
(line 513): Python's sort is stable, and with `reverse=True` records with
equal keys still keep their original order, so it is the stable descending
sort, i.e. a stable merge sort with comparison "left stays when its score is
at least the right one's". -/
def sortDesc (l : List ScoredPosting) : List ScoredPosting :=
  l.mergeSort (fun a b => b.score ≤ a.score)

/-- Model of the selection loop of `main` (lines 518-527).  The accumulator
`count` is the current `len(new_jobs)`: the loop appends a surviving posting
first and only then breaks when `len(new_jobs) >= max_items`. -/
def selectAux (seen : Finset String) (minScore maxItems : Int) :
    List ScoredPosting → Nat → List ScoredPosting
  | [], _ => []
  | j :: rest, count =>
    let url := pyStrip j.job.apply_url
    if url = "" ∨ url ∈ seen then selectAux seen minScore maxItems rest count
    else if j.score < minScore then selectAux seen minScore maxItems rest count
    else if (count : Int) + 1 ≥ maxItems then [j]
    else j :: selectAux seen minScore maxItems rest (count + 1)

/-- The `new_jobs` list of `main` given the already sorted scored list. -/
def select (seen : Finset String) (minScore maxItems : Int)
    (sorted : List ScoredPosting) : List ScoredPosting :=
  selectAux seen minScore maxItems sorted 0

/-- The persisted seen store: the `seen.json` file may be absent, unreadable,
or hold a JSON list of strings. -/
inductive Store where
  | absent
  | corrupt
  | content (l : List String)
deriving DecidableEq, Repr

/-- Model of `load_seen` (lines 21-28): empty set when the file is absent or
unreadable, otherwise the set of the stored strings. -/
def load_seen : Store → Finset String
  | .absent => ∅
  | .corrupt => ∅
  | .content l => l.toFinset

/-- Model of `save_seen` (lines 31-33): the set is persisted as the sorted
list of its elements (`json.dump(sorted(list(seen)), f, ...)`). -/
def save_seen (seen : Finset String) : Store :=
  .content (seen.sort (· ≤ ·))

/-- Scoring stage of `main` (lines 505-511): score every deduplicated job and
keep those with positive score, attaching the score. -/
def scoredJobs (pr : String → String → ℚ) (cfg : Config)
    (global_set brazil_set extra_set : Finset String) (jobs : List Posting) :
    List ScoredPosting :=
  (jobs.map (fun j => ScoredPosting.mk j (score_job pr j cfg global_set brazil_set extra_set))).filter
    (fun p => 0 < p.score)

/-- The `new_jobs` list computed by `main` (lines 503-527) from the fetched
postings and the seen set loaded at run start. -/
def pipelineNewJobs (pr : String → String → ℚ) (cfg : Config)
    (global_set brazil_set extra_set : Finset String)
    (fetched : List Posting) (seen : Finset String) : List ScoredPosting :=
  select seen cfg.min_score_to_send cfg.max_items_per_day
    (sortDesc (scoredJobs pr cfg global_set brazil_set extra_set (dedupe fetched)))

/-- The identifying URLs added to the seen set after delivery (lines 532-535):
`url = (j.get("apply_url") or "").strip(); if url: seen.add(url)`. -/
def deliveredUrls (newJobs : List ScoredPosting) : List String :=
  newJobs.filterMap
    (fun j => if pyStrip j.job.apply_url = "" then none else some (pyStrip j.job.apply_url))

/-- Model of the delivery-and-persist tail of `main` (lines 503-536), with the
store threaded as explicit state.  The notifier (`send_telegram`, which may
raise) is the abstract parameter `send`, and the message formatter
(`format_message`, impure because it reads the current date) the parameter
`fmt`.  A raise in `send` propagates: the statements after it, in particular
`save_seen`, never run and the store is unchanged. -/
def mainRun (pr : String → String → ℚ) (send : String → Except String Unit)
    (fmt : List ScoredPosting → String) (cfg : Config)
    (global_set brazil_set extra_set : Finset String)
    (fetched : List Posting) (store : Store) :
    Except String (List ScoredPosting) × Store :=
  let seen := load_seen store
  let newJobs := pipelineNewJobs pr cfg global_set brazil_set extra_set fetched seen
  match send (fmt newJobs) with
  | .error e => (.error e, store)
  | .ok _ =>
    let seen' := seen ∪ (deliveredUrls newJobs).toFinset
    (.ok newJobs, save_seen seen')

/-! ### Helper lemmas about `dedupe` -/

theorem dedupeAux_sublist : ∀ (l : List Posting) (s : List String),
    List.Sublist (dedupeAux s l) l := by
  intro l
  induction l with
  | nil => intro s; exact List.Sublist.refl _
  | cons it rest ih =>
    intro s
    simp only [dedupeAux]
    split
    · exact (ih s).cons it
    · split
      · exact (ih s).cons it
      · exact (ih _).cons₂ it

theorem mem_dedupeAux_ne : ∀ (l : List Posting) (s : List String) (p : Posting),
    p ∈ dedupeAux s l → pyStrip p.apply_url ≠ "" := by
  intro l
  induction l with
  | nil => intro s p h; simp [dedupeAux] at h
  | cons it rest ih =>
    intro s p h
    simp only [dedupeAux] at h
    split at h
    · exact ih s p h
    · split at h
      · exact ih s p h
      · rcases List.mem_cons.mp h with h1 | h1
        · subst h1
          assumption
        · exact ih _ p h1

theorem mem_dedupeAux_notin : ∀ (l : List Posting) (s : List String) (p : Posting),
    p ∈ dedupeAux s l → pyStrip p.apply_url ∉ s := by
  intro l
  induction l with
  | nil => intro s p h; simp [dedupeAux] at h
  | cons it rest ih =>
    intro s p h
    simp only [dedupeAux] at h
    split at h
    · exact ih s p h
    · split at h
      · exact ih s p h
      · rcases List.mem_cons.mp h with h1 | h1
        · subst h1
          assumption
        · intro hs
          exact ih _ p h1 (List.mem_cons_of_mem _ hs)

theorem dedupeAux_urls_nodup : ∀ (l : List Posting) (s : List String),
    ((dedupeAux s l).map (fun p => pyStrip p.apply_url)).Nodup := by
  intro l
  induction l with
  | nil => intro s; simp [dedupeAux]
  | cons it rest ih =>
    intro s
    simp only [dedupeAux]
    split
    · exact ih s
    · split
      · exact ih s
      · simp only [List.map_cons, List.nodup_cons]
        refine ⟨?_, ih _⟩
        intro hmem
        rcases List.mem_map.mp hmem with ⟨q, hq, hqe⟩
        exact mem_dedupeAux_notin rest _ q hq (hqe ▸ List.mem_cons_self _ _)

theorem dedupeAux_filter_of_mem : ∀ (l : List Posting) (s : List String) (u : String),
    u ∈ s → (dedupeAux s l).filter (fun p => pyStrip p.apply_url == u) = [] := by
  intro l
  induction l with
  | nil => intro s u _; simp [dedupeAux]
  | cons it rest ih =>
    intro s u hu
    simp only [dedupeAux]
    split
    · exact ih s u hu
    · split
      · exact ih s u hu
      · rename_i hne hnotin
        rw [List.filter_cons]
        have : (pyStrip it.apply_url == u) = false := by
          simp only [beq_eq_false_iff_ne, ne_eq]
          intro he
          exact hnotin (he ▸ hu)
        rw [this]
        simp only [Bool.false_eq_true, if_false]
        exact ih _ u (List.mem_cons_of_mem _ hu)

theorem dedupeAux_filter_of_not_mem : ∀ (l : List Posting) (s : List String) (u : String),
    u ≠ "" → u ∉ s →
    (dedupeAux s l).filter (fun p => pyStrip p.apply_url == u)
      = (l.filter (fun p => pyStrip p.apply_url == u)).take 1 := by
  intro l
  induction l with
  | nil => intro s u _ _; simp [dedupeAux]
  | cons it rest ih =>
    intro s u hu hus
    simp only [dedupeAux]
    by_cases he : pyStrip it.apply_url = ""
    · rw [if_pos he, List.filter_cons]
      have : (pyStrip it.apply_url == u) = false := by
        simp only [beq_eq_false_iff_ne, ne_eq]
        intro h
        exact hu (h ▸ he)
      rw [this]
      simp only [Bool.false_eq_true, if_false]
      exact ih s u hu hus
    · rw [if_neg he]
      by_cases hseen : pyStrip it.apply_url ∈ s
      · rw [if_pos hseen, List.filter_cons]
        have : (pyStrip it.apply_url == u) = false := by
          simp only [beq_eq_false_iff_ne, ne_eq]
          intro h
          exact hus (h ▸ hseen)
        rw [this]
        simp only [Bool.false_eq_true, if_false]
        exact ih s u hu hus
      · rw [if_neg hseen]
        by_cases hequ : pyStrip it.apply_url = u
        · rw [List.filter_cons, List.filter_cons]
          have : (pyStrip it.apply_url == u) = true := beq_iff_eq.mpr hequ
          rw [this]
          simp only [if_true]
          rw [List.take_succ_cons, List.take_zero]
          have h0 : (dedupeAux (pyStrip it.apply_url :: s) rest).filter
              (fun p => pyStrip p.apply_url == u) = [] :=
            dedupeAux_filter_of_mem rest _ u (hequ ▸ List.mem_cons_self _ _)
          rw [h0]
        · rw [List.filter_cons, List.filter_cons]
          have : (pyStrip it.apply_url == u) = false := beq_eq_false_iff_ne.mpr hequ
          rw [this]
          simp only [Bool.false_eq_true, if_false]
          exact ih _ u hu (by
            intro h
            rcases List.mem_cons.mp h with h1 | h1
            · exact hequ h1.symm
            · exact hus h1)

theorem dedupeAux_of_clean : ∀ (m : List Posting) (s : List String),
    (∀ p ∈ m, pyStrip p.apply_url ≠ "") →
    ((m.map (fun p => pyStrip p.apply_url)).Nodup) →
    (∀ p ∈ m, pyStrip p.apply_url ∉ s) →
    dedupeAux s m = m := by
  intro m
  induction m with
  | nil => intro s _ _ _; rfl
  | cons it rest ih =>
    intro s hne hnd hns
    simp only [dedupeAux]
    rw [if_neg (hne it (List.mem_cons_self _ _)),
        if_neg (hns it (List.mem_cons_self _ _))]
    congr 1
    simp only [List.map_cons, List.nodup_cons] at hnd
    refine ih _ (fun p hp => hne p (List.mem_cons_of_mem _ hp)) hnd.2 ?_
    intro p hp hmem
    rcases List.mem_cons.mp hmem with h1 | h1
    · exact hnd.1 (h1 ▸ List.mem_map_of_mem _ hp)
    · exact hns p (List.mem_cons_of_mem _ hp) h1

/-! ### Shared concrete fixtures for witnesses and counterexamples -/

/-- A trivial stand-in for the external fuzzy similarity. -/
def pr0 : String → String → ℚ := fun _ _ => 0

/-- A configuration with every list empty and the numeric defaults of the
code (`bonus_extra` 14, `bonus_global` 10, `bonus_brazil` 8,
`min_score_to_send` 74, `max_items_per_day` 20). -/
def cfg0 : Config :=
  { exclude_title_keywords := []
    must_contain_any_of := []
    target_title_keywords := []
    brazil_location_keywords := []
    remote_keywords := []
    nice_keywords_desc := []
    require_remote_outside_brazil := true
    company_universe :=
      { enabled := true, bonus_extra := 14, bonus_global := 10, bonus_brazil := 8 }
    min_score_to_send := 74
    max_items_per_day := 20 }

/-- A posting fixture. -/
def basePosting : Posting :=
  { title := "Finance Director"
    company := "Acme"
    location := ""
    apply_url := "https://x/1"
    description := ""
    source := ""
    date_posted := "" }

/-! ### C6: dedupe keeps the first occurrence per nonempty URL, in order -/

/-- C6: `dedupe` preserves first-seen order (its output is a subsequence of
the input), drops every posting whose identifying URL is empty after
stripping, and for each nonempty identifying URL keeps exactly the first
occurrence in input order. -/
theorem claim_C6 (l : List Posting) :
    List.Sublist (dedupe l) l ∧
    (∀ p ∈ dedupe l, pyStrip p.apply_url ≠ "") ∧
    (∀ u : String, u ≠ "" →
      (dedupe l).filter (fun p => pyStrip p.apply_url == u)
        = (l.filter (fun p => pyStrip p.apply_url == u)).take 1) :=
  ⟨dedupeAux_sublist l [],
   fun p hp => mem_dedupeAux_ne l [] p hp,
   fun u hu => dedupeAux_filter_of_not_mem l [] u hu (List.not_mem_nil u)⟩

/-- Witness for C6: on a list with two postings sharing apply_url
"https://x/1", exactly the first is kept. -/
theorem claim_C6_witness :
    (dedupe [basePosting, { basePosting with title := "second" }]).filter
        (fun p => pyStrip p.apply_url == "https://x/1")
      = ([basePosting, { basePosting with title := "second" }].filter
          (fun p => pyStrip p.apply_url == "https://x/1")).take 1 :=
  (claim_C6 [basePosting, { basePosting with title := "second" }]).2.2
    "https://x/1" (by decide)

/-! ### C7: dedupe is idempotent -/

/-- C7: `dedupe (dedupe x) = dedupe x` for every input list. -/
theorem claim_C7 (x : List Posting) : dedupe (dedupe x) = dedupe x :=
  dedupeAux_of_clean (dedupe x) []
    (fun p hp => mem_dedupeAux_ne x [] p hp)
    (dedupeAux_urls_nodup x [])
    (fun p _ => List.not_mem_nil (pyStrip p.apply_url))

/-! ### C8: the seen store round-trips -/

theorem load_seen_save_seen (S : Finset String) : load_seen (save_seen S) = S := by
  simp only [save_seen, load_seen]
  exact Finset.sort_toFinset _ S

/-- C8: loading immediately after saving returns exactly the saved set, even
though the store persists it as a sorted list. -/
theorem claim_C8 (S : Finset String) : load_seen (save_seen S) = S :=
  load_seen_save_seen S

/-! ### C2: the domain predicate and the empty must-contain list -/

/-- The spec sentence for `matches_domain`, as amended: true automatically on
a title containing "cfo" or "chief financial officer"; otherwise true iff the
title contains at least one listed term — so an empty must-contain list makes
it false for every other title (the claim's "or the list is empty" branch
does not hold in the code). -/
def matches_domain_amended (title : String) (must : List String) : Prop :=
  strIn "cfo" (norm title) = true ∨
  strIn "chief financial officer" (norm title) = true ∨
  ∃ k ∈ must, strIn (norm k) (norm title) = true

/-- Counterexample to C2 as stated: the title "head of payroll" contains
neither CFO phrase and the must-contain list is empty, so the claim says the
predicate is true; the code returns false (`any` of an empty generator). -/
theorem claim_C2_counterexample :
    strIn "cfo" (norm "head of payroll") = false ∧
    strIn "chief financial officer" (norm "head of payroll") = false ∧
    cfg0.must_contain_any_of = [] ∧
    must_be_finance_domain "head of payroll" cfg0 = false :=
  ⟨rfl, rfl, rfl, rfl⟩

/-- C2 as amended: the domain predicate is true exactly when the normalized
title contains a CFO phrase or at least one listed term; in particular an
empty must-contain list makes it false for every non-CFO title. -/
theorem claim_C2 (title : String) (cfg : Config) :
    must_be_finance_domain title cfg = true ↔
      matches_domain_amended title cfg.must_contain_any_of := by
  simp only [must_be_finance_domain, matches_domain_amended]
  by_cases h : (strIn "cfo" (norm title) || strIn "chief financial officer" (norm title)) = true
  · rw [if_pos h]
    rcases Bool.or_eq_true_iff.mp h with h' | h'
    · exact iff_of_true rfl (Or.inl h')
    · exact iff_of_true rfl (Or.inr (Or.inl h'))
  · rw [if_neg h]
    rw [List.any_eq_true]
    have h1 : ¬strIn "cfo" (norm title) = true := fun hc => h (by simp [hc])
    have h2 : ¬strIn "chief financial officer" (norm title) = true := fun hc => h (by simp [hc])
    constructor
    · intro hk
      exact Or.inr (Or.inr hk)
    · intro hd
      rcases hd with h' | h' | h'
      · exact absurd h' h1
      · exact absurd h' h2
      · exact h'

/-! ### C1: the score is bounded and the exclusion veto forces zero -/

/-- C1: for every posting, configuration, company universe and similarity
function, `score_job` returns an integer in [0, 100]; and whenever
`should_exclude_title` holds for the posting's title it returns 0, whatever
the other inputs are (the veto is the first test and short-circuits). -/
theorem claim_C1 (pr : String → String → ℚ) (job : Posting) (cfg : Config)
    (gs bs es : Finset String) :
    (0 ≤ score_job pr job cfg gs bs es ∧ score_job pr job cfg gs bs es ≤ 100) ∧
    (should_exclude_title job.title cfg = true → score_job pr job cfg gs bs es = 0) := by
  constructor
  · simp only [score_job]
    split
    · omega
    · split
      · omega
      · split
        · omega
        · split
          · omega
          · omega
  · intro h
    simp [score_job, h]

/-- Witness for C1 at a concrete vetoed posting: a config excluding "intern"
zeroes out a "Finance Intern" posting, and the bounds hold there. -/
theorem claim_C1_witness :
    (0 ≤ score_job pr0 { basePosting with title := "Finance Intern" }
        { cfg0 with exclude_title_keywords := ["intern"] } ∅ ∅ ∅ ∧
      score_job pr0 { basePosting with title := "Finance Intern" }
        { cfg0 with exclude_title_keywords := ["intern"] } ∅ ∅ ∅ ≤ 100) ∧
    score_job pr0 { basePosting with title := "Finance Intern" }
        { cfg0 with exclude_title_keywords := ["intern"] } ∅ ∅ ∅ = 0 :=
  ⟨(claim_C1 pr0 { basePosting with title := "Finance Intern" }
      { cfg0 with exclude_title_keywords := ["intern"] } ∅ ∅ ∅).1,
   (claim_C1 pr0 { basePosting with title := "Finance Intern" }
      { cfg0 with exclude_title_keywords := ["intern"] } ∅ ∅ ∅).2 (by decide)⟩

/-! ### C3: exact title match outranks the fuzzy staircase; sub-threshold
fuzzy match is a veto -/

theorem title_match_score_cases (pr : String → String → ℚ) (t : String) (cfg : Config) :
    title_match_score pr t cfg = 78 ∨ title_match_score pr t cfg = 68 ∨
    title_match_score pr t cfg = 58 ∨ title_match_score pr t cfg = 48 ∨
    title_match_score pr t cfg = 0 := by
  simp only [title_match_score]
  split
  · exact Or.inl rfl
  · split
    · exact Or.inr (Or.inl rfl)
    · split
      · exact Or.inr (Or.inr (Or.inl rfl))
      · split
        · exact Or.inr (Or.inr (Or.inr (Or.inl rfl)))
        · exact Or.inr (Or.inr (Or.inr (Or.inr rfl)))

theorem score_job_eq_zero_of_title (pr : String → String → ℚ) (job : Posting)
    (cfg : Config) (gs bs es : Finset String)
    (h : title_match_score pr job.title cfg = 0) :
    score_job pr job cfg gs bs es = 0 := by
  simp [score_job, h]

/-- C3: with a non-empty target-keyword list, a verbatim substring match of
any (nonempty-normalized) target keyword makes the base title score the fixed
tier-1 value 78, which is strictly above every score any invocation without a
verbatim match can reach through the fuzzy staircase; and when no keyword
matches verbatim and the fuzzy maximum is below the lowest threshold 84, the
base title score is 0 and the posting's total score is 0 (rejection). -/
theorem claim_C3 (pr : String → String → ℚ) (title : String) (cfg : Config)
    (_hne : cfg.target_title_keywords ≠ []) :
    ((∃ k ∈ cfg.target_title_keywords,
        norm k ≠ "" ∧ strIn (norm k) (norm title) = true) →
      title_match_score pr title cfg = 78 ∧
      ∀ (pr' : String → String → ℚ) (title' : String) (cfg' : Config),
        (∀ k ∈ cfg'.target_title_keywords,
          ¬(norm k ≠ "" ∧ strIn (norm k) (norm title') = true)) →
        title_match_score pr' title' cfg' < 78) ∧
    ((∀ k ∈ cfg.target_title_keywords,
        ¬(norm k ≠ "" ∧ strIn (norm k) (norm title) = true)) →
      fuzzy_best pr (norm title) cfg < 84 →
      title_match_score pr title cfg = 0 ∧
      ∀ (job : Posting) (gs bs es : Finset String), job.title = title →
        score_job pr job cfg gs bs es = 0) := by
  have key78 : ∀ (q : String → String → ℚ) (t : String) (c : Config),
      (∃ k ∈ c.target_title_keywords, norm k ≠ "" ∧ strIn (norm k) (norm t) = true) →
      title_match_score q t c = 78 := by
    intro q t c ⟨k, hk, hkne, hkin⟩
    simp only [title_match_score]
    rw [if_pos]
    exact List.any_eq_true.mpr ⟨k, hk, by simp [hkne, hkin]⟩
  have keyAny : ∀ (q : String → String → ℚ) (t : String) (c : Config),
      (∀ k ∈ c.target_title_keywords, ¬(norm k ≠ "" ∧ strIn (norm k) (norm t) = true)) →
      (c.target_title_keywords.any
        (fun k => norm k ≠ "" && strIn (norm k) (norm t))) = false := by
    intro q t c hno
    rw [List.any_eq_false]
    intro k hk
    simp only [Bool.and_eq_true, decide_eq_true_eq]
    intro hcon
    exact hno k hk ⟨hcon.1, hcon.2⟩
  refine ⟨?_, ?_⟩
  · intro hex
    refine ⟨key78 pr title cfg hex, ?_⟩
    intro pr' title' cfg' hno
    have hany := keyAny pr' title' cfg' hno
    simp only [title_match_score, hany]
    simp only [Bool.false_eq_true, if_false]
    split
    · omega
    · split
      · omega
      · split
        · omega
        · omega
  · intro hno hbest
    have hany := keyAny pr title cfg hno
    have hz : title_match_score pr title cfg = 0 := by
      simp only [title_match_score, hany]
      simp only [Bool.false_eq_true, if_false]
      rw [if_neg, if_neg, if_neg]
      · intro hc
        exact absurd hbest (not_lt.mpr (le_trans (by norm_num) hc))
      · intro hc
        exact absurd hbest (not_lt.mpr (le_trans (by norm_num) hc))
      · intro hc
        exact absurd hbest (not_lt.mpr (le_trans (by norm_num) hc))
    exact ⟨hz, fun job gs bs es hjt =>
      score_job_eq_zero_of_title pr job cfg gs bs es (hjt ▸ hz)⟩

/-- Config fixture for C3's witness: the single target keyword
"finance director". -/
def cfg3 : Config := { cfg0 with target_title_keywords := ["finance director"] }

/-- Witness for C3 at the spec's own example: the exact-match title scores 78
and the fuzzy-only title scores strictly less. -/
theorem claim_C3_witness :
    title_match_score pr0 "Finance Director, LATAM" cfg3 = 78 ∧
    title_match_score pr0 "Finnance Diretor" cfg3 < 78 := by
  have h := claim_C3 pr0 "Finance Director, LATAM" cfg3 (by decide)
  have h1 := h.1 ⟨"finance director", by decide, by decide, by decide⟩
  exact ⟨h1.1, h1.2 pr0 "Finnance Diretor" cfg3 (by decide)⟩

/-! ### C10: no score strictly between 0 and the lowest title tier -/

theorem kw_fold_nonneg : ∀ (ks : List String) (d : String) (init : Int), 0 ≤ init →
    0 ≤ ks.foldl (fun b k => if strIn (norm k) d then b + 3 else b) init := by
  intro ks
  induction ks with
  | nil => intro d init h; exact h
  | cons k ks ih =>
    intro d init h
    simp only [List.foldl_cons]
    apply ih
    split
    · omega
    · omega

theorem company_bonus_nonneg (company : String) (br : Bool)
    (gs bs es : Finset String) (cfg : Config)
    (h1 : 0 ≤ cfg.company_universe.bonus_extra)
    (h2 : 0 ≤ cfg.company_universe.bonus_global)
    (h3 : 0 ≤ cfg.company_universe.bonus_brazil) :
    0 ≤ company_bonus company br gs bs es cfg := by
  simp only [company_bonus]
  split
  · omega
  · refine add_nonneg (add_nonneg ?_ ?_) ?_
    · split
      · exact h1
      · omega
    · split
      · exact h2
      · omega
    · split
      · exact h3
      · omega

/-- Configuration fixture refuting C10 as stated: the `extra_companies` bonus
is set (legally, it is read with `int(cu.get("bonus_extra", 14))`) to the
negative value -40. -/
def cfg10 : Config :=
  { cfg0 with
    target_title_keywords := ["finance director"]
    must_contain_any_of := ["finance"]
    require_remote_outside_brazil := false
    company_universe :=
      { enabled := true, bonus_extra := -40, bonus_global := 10, bonus_brazil := 8 } }

/-- Counterexample to C10 as stated: with a negative configured company bonus
the total score lands at 38, strictly between 0 and the lowest base-title
tier 48. -/
theorem claim_C10_counterexample :
    score_job pr0 basePosting cfg10 ∅ ∅ {"acme"} = 38 ∧
    ¬(score_job pr0 basePosting cfg10 ∅ ∅ {"acme"} = 0 ∨
      48 ≤ score_job pr0 basePosting cfg10 ∅ ∅ {"acme"}) := by
  constructor
  · decide
  · decide

/-- C10 as amended: provided the three configured company-universe bonuses
are nonnegative (every other additive term is nonnegative by construction),
`score_job` returns either 0 or a value at least the lowest base-title tier
48 — nothing strictly in between, because bonuses are only added once a
nonzero base title score is established. -/
theorem claim_C10 (pr : String → String → ℚ) (job : Posting) (cfg : Config)
    (gs bs es : Finset String)
    (h1 : 0 ≤ cfg.company_universe.bonus_extra)
    (h2 : 0 ≤ cfg.company_universe.bonus_global)
    (h3 : 0 ≤ cfg.company_universe.bonus_brazil) :
    score_job pr job cfg gs bs es = 0 ∨ 48 ≤ score_job pr job cfg gs bs es := by
  simp only [score_job]
  split
  · exact Or.inl rfl
  · split
    · exact Or.inl rfl
    · split
      · exact Or.inl rfl
      · split
        · exact Or.inl rfl
        · right
          rename_i hts
          have hcases := title_match_score_cases pr job.title cfg
          have hkw := kw_fold_nonneg cfg.nice_keywords_desc
            (norm (strip_html job.description)) 0 le_rfl
          have hcb := company_bonus_nonneg job.company (is_brazil_job job.location cfg)
            gs bs es cfg h1 h2 h3
          have hbr : (0:Int) ≤ (if is_brazil_job job.location cfg = true then 6 else 0) := by
            split
            · omega
            · omega
          have hrm : (0:Int) ≤ (if is_remote_job job cfg = true then 6 else 0) := by
            split
            · omega
            · omega
          omega

/-- Witness for C10 (amended) at a concrete input with the default
nonnegative bonuses: the empty must-contain list rejects the posting, so the
left disjunct holds. -/
theorem claim_C10_witness :
    score_job pr0 basePosting cfg0 ∅ ∅ ∅ = 0 ∨
    48 ≤ score_job pr0 basePosting cfg0 ∅ ∅ ∅ :=
  claim_C10 pr0 basePosting cfg0 ∅ ∅ ∅ (by decide) (by decide) (by decide)

/-! ### C4: ranking, seen filtering and truncation -/

/-- Survival predicate of the selection loop: the stripped identifying URL is
not in the seen set and the score reaches the minimum. -/
def survives (seen : Finset String) (minScore : Int) (p : ScoredPosting) : Bool :=
  !(pyStrip p.job.apply_url ∈ seen) && minScore ≤ p.score

theorem selectAux_eq_take_filter (seen : Finset String) (minScore maxItems : Int) :
    ∀ (l : List ScoredPosting) (count : Nat),
    (∀ p ∈ l, pyStrip p.job.apply_url ≠ "") →
    (count : Int) < maxItems →
    selectAux seen minScore maxItems l count
      = (l.filter (survives seen minScore)).take (maxItems.toNat - count) := by
  intro l
  induction l with
  | nil => intro count _ _; simp [selectAux]
  | cons j rest ih =>
    intro count hurl hcount
    simp only [selectAux]
    by_cases hseen : pyStrip j.job.apply_url ∈ seen
    · rw [if_pos (Or.inr hseen), List.filter_cons]
      have hsv : survives seen minScore j = false := by
        simp [survives, hseen]
      rw [hsv]
      simp only [Bool.false_eq_true, if_false]
      exact ih count (fun p hp => hurl p (List.mem_cons_of_mem _ hp)) hcount
    · have hne := hurl j (List.mem_cons_self _ _)
      rw [if_neg (fun hor => hor.elim hne hseen)]
      by_cases hmin : j.score < minScore
      · rw [if_pos hmin, List.filter_cons]
        have hsv : survives seen minScore j = false := by
          simp [survives, hseen]
          omega
        rw [hsv]
        simp only [Bool.false_eq_true, if_false]
        exact ih count (fun p hp => hurl p (List.mem_cons_of_mem _ hp)) hcount
      · rw [if_neg hmin, List.filter_cons]
        have hsv : survives seen minScore j = true := by
          simp [survives, hseen]
          omega
        rw [hsv]
        simp only [if_true]
        by_cases hbreak : (count : Int) + 1 ≥ maxItems
        · rw [if_pos hbreak]
          have h1 : maxItems.toNat - count = 1 := by omega
          rw [h1, List.take_succ_cons, List.take_zero]
        · rw [if_neg hbreak]
          have h1 : maxItems.toNat - count = (maxItems.toNat - (count + 1)) + 1 := by
            omega
          rw [h1, List.take_succ_cons]
          have hcount' : ((count + 1 : Nat) : Int) < maxItems := by
            push_cast
            omega
          rw [ih (count + 1) (fun p hp => hurl p (List.mem_cons_of_mem _ hp)) hcount']

theorem sortDesc_trans : ∀ a b c : ScoredPosting,
    decide (b.score ≤ a.score) = true → decide (c.score ≤ b.score) = true →
    decide (c.score ≤ a.score) = true := by
  intro a b c hab hbc
  simp only [decide_eq_true_eq] at hab hbc ⊢
  omega

theorem sortDesc_total : ∀ a b : ScoredPosting,
    (decide (b.score ≤ a.score) || decide (a.score ≤ b.score)) = true := by
  intro a b
  rcases le_total b.score a.score with h | h
  · simp [h]
  · simp [h]

/-- Stability of the descending sort: for each score value, the sublist of
postings carrying that score is unchanged, i.e. ties retain relative input
order. -/
theorem sortDesc_filter_score (l : List ScoredPosting) (v : Int) :
    (sortDesc l).filter (fun p => p.score == v) = l.filter (fun p => p.score == v) := by
  have hpw : (l.filter (fun p => p.score == v)).Pairwise
      (fun a b => (fun a b : ScoredPosting => decide (b.score ≤ a.score)) a b) := by
    apply List.pairwise_of_forall_mem_list
    intro a ha b hb
    have ha' : a.score = v := by
      have := (List.mem_filter.mp ha).2
      simpa using this
    have hb' : b.score = v := by
      have := (List.mem_filter.mp hb).2
      simpa using this
    simp [ha', hb']
  have hs1 : List.Sublist (l.filter (fun p => p.score == v)) (sortDesc l) :=
    List.sublist_mergeSort sortDesc_trans sortDesc_total hpw (List.filter_sublist l)
  have hs2 : List.Sublist (l.filter (fun p => p.score == v))
      ((sortDesc l).filter (fun p => p.score == v)) := by
    have h := hs1.filter (fun p => p.score == v)
    rwa [List.filter_eq_self.mpr (fun a ha => (List.mem_filter.mp ha).2)] at h
  have hlen : ((sortDesc l).filter (fun p => p.score == v)).length
      = (l.filter (fun p => p.score == v)).length :=
    ((List.mergeSort_perm l _).filter _).length_eq
  exact (hs2.eq_of_length hlen.symm).symm

/-- Counterexample to C4 as stated: with maximum count 0 the loop still
delivers one posting (it appends before checking the bound), while filtering
then truncating to 0 delivers none — so the delivered list can exceed the
maximum. -/
theorem claim_C4_counterexample :
    select ∅ 0 0 (sortDesc [ScoredPosting.mk basePosting 80])
      = [ScoredPosting.mk basePosting 80] ∧
    ((sortDesc [ScoredPosting.mk basePosting 80]).filter (survives ∅ 0)).take
        ((0 : Int).toNat) = [] := by
  have hs : sortDesc [ScoredPosting.mk basePosting 80]
      = [ScoredPosting.mk basePosting 80] := by
    simp [sortDesc]
  rw [hs]
  constructor
  · decide
  · decide

/-- C4 as amended: provided the configured maximum count is at least 1 (with
a nonpositive maximum the loop still delivers one posting before checking the
bound) and every scored posting has a nonempty stripped identifying URL (true
of every posting that passed `dedupe`), the delivered selection equals the
stable descending sort of the survivors, filtered against the seen set and
the minimum score, and only then truncated to the maximum count; the
delivered list never exceeds the maximum; and the sort is a permutation,
sorted by score descending, with ties retaining relative input order. -/
theorem claim_C4 (scored : List ScoredPosting) (seen : Finset String)
    (minScore maxItems : Int)
    (hurl : ∀ p ∈ scored, pyStrip p.job.apply_url ≠ "")
    (hmax : 1 ≤ maxItems) :
    select seen minScore maxItems (sortDesc scored)
      = ((sortDesc scored).filter (survives seen minScore)).take maxItems.toNat ∧
    (select seen minScore maxItems (sortDesc scored)).length ≤ maxItems.toNat ∧
    List.Perm (sortDesc scored) scored ∧
    (sortDesc scored).Pairwise (fun a b => b.score ≤ a.score) ∧
    (∀ v : Int, (sortDesc scored).filter (fun p => p.score == v)
      = scored.filter (fun p => p.score == v)) := by
  have hurl' : ∀ p ∈ sortDesc scored, pyStrip p.job.apply_url ≠ "" := by
    intro p hp
    exact hurl p (List.mem_mergeSort.mp hp)
  have heq : select seen minScore maxItems (sortDesc scored)
      = ((sortDesc scored).filter (survives seen minScore)).take maxItems.toNat := by
    have h := selectAux_eq_take_filter seen minScore maxItems (sortDesc scored) 0
      hurl' (by omega)
    simpa [select] using h
  refine ⟨heq, ?_, List.mergeSort_perm scored _, ?_, fun v => sortDesc_filter_score scored v⟩
  · rw [heq]
    exact le_trans (List.length_take_le _ _) le_rfl
  · have h := List.sorted_mergeSort sortDesc_trans sortDesc_total scored
    exact h.imp (fun hab => by simpa using hab)

/-- Witness for C4 (amended) at a concrete one-element list and the default
maximum 20. -/
theorem claim_C4_witness :
    select ∅ 0 20 (sortDesc [ScoredPosting.mk basePosting 80])
      = ((sortDesc [ScoredPosting.mk basePosting 80]).filter (survives ∅ 0)).take
          ((20 : Int)).toNat ∧
    (select ∅ 0 20 (sortDesc [ScoredPosting.mk basePosting 80])).length
      ≤ ((20 : Int)).toNat :=
  ⟨(claim_C4 [ScoredPosting.mk basePosting 80] ∅ 0 20 (by decide) (by decide)).1,
   (claim_C4 [ScoredPosting.mk basePosting 80] ∅ 0 20 (by decide) (by decide)).2.1⟩

/-! ### C5: a delivery failure aborts the run and leaves the store unchanged -/

/-- C5: if the notifier raises on the formatted message of the run's
delivered postings, the run ends with that error and the persisted seen store
is exactly the one loaded at run start — `save_seen` runs only after
`send_telegram` returns successfully. -/
theorem claim_C5 (pr : String → String → ℚ) (send : String → Except String Unit)
    (fmt : List ScoredPosting → String) (cfg : Config)
    (gs bs es : Finset String) (fetched : List Posting) (store : Store) (e : String)
    (h : send (fmt (pipelineNewJobs pr cfg gs bs es fetched (load_seen store)))
        = Except.error e) :
    mainRun pr send fmt cfg gs bs es fetched store = (Except.error e, store) := by
  simp only [mainRun, h]

/-- Witness for C5: a notifier that always raises leaves an absent store
absent and surfaces the error. -/
theorem claim_C5_witness :
    mainRun pr0 (fun _ => Except.error "telegram down") (fun _ => "") cfg0
      ∅ ∅ ∅ [] Store.absent = (Except.error "telegram down", Store.absent) :=
  claim_C5 pr0 (fun _ => Except.error "telegram down") (fun _ => "") cfg0
    ∅ ∅ ∅ [] Store.absent "telegram down" rfl

/-! ### C9: the persisted seen set grows monotonically -/

/-- C9: on a successful run the persisted set is the loaded set extended with
exactly the delivered postings' identifying URLs; in particular it is a
superset of the set loaded at run start, and no entry is ever removed. -/
theorem claim_C9 (pr : String → String → ℚ) (send : String → Except String Unit)
    (fmt : List ScoredPosting → String) (cfg : Config)
    (gs bs es : Finset String) (fetched : List Posting) (store store' : Store)
    (delivered : List ScoredPosting)
    (h : mainRun pr send fmt cfg gs bs es fetched store
        = (Except.ok delivered, store')) :
    load_seen store ⊆ load_seen store' ∧
    load_seen store' = load_seen store ∪ (deliveredUrls delivered).toFinset := by
  simp only [mainRun] at h
  cases hs : send (fmt (pipelineNewJobs pr cfg gs bs es fetched (load_seen store))) with
  | error e =>
    rw [hs] at h
    simp at h
  | ok u =>
    rw [hs] at h
    simp only [Prod.mk.injEq, Except.ok.injEq] at h
    obtain ⟨hdel, hst⟩ := h
    subst hdel
    subst hst
    rw [load_seen_save_seen]
    exact ⟨Finset.subset_union_left, rfl⟩

/-- Witness for C9: a successful run over no fetched postings persists
exactly the loaded set. -/
theorem claim_C9_witness :
    load_seen Store.absent ⊆ load_seen (Store.content []) ∧
    load_seen (Store.content [])
      = load_seen Store.absent ∪ (deliveredUrls []).toFinset :=
  claim_C9 pr0 (fun _ => Except.ok ()) (fun _ => "") cfg0 ∅ ∅ ∅ []
    Store.absent (Store.content []) [] (by
      simp only [mainRun, pipelineNewJobs, scoredJobs, dedupe, dedupeAux, sortDesc,
        List.mergeSort_nil, select, selectAux, List.map_nil, List.filter_nil]
      simp [deliveredUrls, save_seen, load_seen])

end JobRadar
